import Mathlib

/-!
# Verification of the trig-analyse exact-rational core

Shallow embedding of the rational / complex / continued-fraction core of the
repository (`public/RationalBigInt.js`, `Complex.js`, `public/Trig.js`).
JavaScript `BigInt` values are modelled as `Int`; JavaScript `BigInt`
division and remainder truncate toward zero, so they are modelled by
`Int.tdiv` and `Int.tmod`.  Fallible operations (JavaScript `throw`) are
modelled with `Except JSError`.
-/

deriving instance DecidableEq for Except

namespace TrigAnalyse

/-- The error kinds thrown by the core (spec section 7). -/
inductive JSError where
  | divisionByZero
  | negativeInput
  | nonFiniteInput
  deriving Repr, DecidableEq

/-- A rational over arbitrary-precision integers, `{ n, d }` as in
`RationalBigInt.js`. -/
structure RatBI where
  n : Int
  d : Int
  deriving Repr, DecidableEq

/-- Euclidean loop of `gcd` from `RationalBigInt.js` (operands already
taken to absolute value, hence `Nat`): `while (b !== 0n) [a,b] = [b, a % b]`.
The loop runs on a structural fuel counter so that it evaluates inside the
kernel; `b` strictly decreases each iteration, so any fuel above the
initial `b` makes the fuel case unreachable. -/
def gcdLoop : Nat → Nat → Nat → Nat
  | 0, a, _ => a
  | fuel + 1, a, b => if b = 0 then a else gcdLoop fuel b (a % b)

/-- Function `gcd(a, b)` from `RationalBigInt.js`: absolute values, then the
Euclidean loop (run with sufficient fuel). -/
def gcdJS (a b : Int) : Int :=
  (gcdLoop (b.natAbs + 1) a.natAbs b.natAbs : Int)

/-- With sufficient fuel, the Euclidean loop computes the gcd (with the
argument order of `Nat.gcd` flipped, matching the loop's exit state). -/
theorem gcdLoop_eq_gcd : ∀ (fuel a b : Nat), b < fuel → gcdLoop fuel a b = Nat.gcd b a := by
  intro fuel
  induction fuel with
  | zero => omega
  | succ fuel ih =>
    intro a b hb
    by_cases h0 : b = 0
    · subst h0; simp [gcdLoop]
    · rw [gcdLoop, if_neg h0, ih b (a % b) (Nat.lt_of_lt_of_le
        (Nat.mod_lt _ (Nat.pos_of_ne_zero h0)) (Nat.lt_succ_iff.mp hb))]
      exact (Nat.gcd_rec b a).symm

/-- The function `gcdJS` agrees with `Int.gcd`. -/
theorem gcdJS_eq (a b : Int) : gcdJS a b = (Nat.gcd a.natAbs b.natAbs : Int) := by
  unfold gcdJS
  rw [gcdLoop_eq_gcd _ _ _ (Nat.lt_succ_self _), Nat.gcd_comm]

/-- Function `normalizeRational({n, d})` from `RationalBigInt.js`: throws on zero
denominator, canonicalizes zero to `0/1`, flips the sign so `d > 0`, and
divides both components by their gcd. -/
def normalizeRational (r : RatBI) : Except JSError RatBI :=
  if r.d = 0 then .error .divisionByZero
  else if r.n = 0 then .ok ⟨0, 1⟩
  else
    let n := if r.d < 0 then -r.n else r.n
    let d := if r.d < 0 then -r.d else r.d
    let g := gcdJS n d
    .ok ⟨n.tdiv g, d.tdiv g⟩

/-- Function `addRational` from `RationalBigInt.js`. -/
def addRational (a b : RatBI) : Except JSError RatBI :=
  normalizeRational ⟨a.n * b.d + b.n * a.d, a.d * b.d⟩

/-- Function `subtractRational` from `RationalBigInt.js`. -/
def subtractRational (a b : RatBI) : Except JSError RatBI :=
  normalizeRational ⟨a.n * b.d - b.n * a.d, a.d * b.d⟩

/-- Function `multiplyRational` from `RationalBigInt.js`. -/
def multiplyRational (a b : RatBI) : Except JSError RatBI :=
  normalizeRational ⟨a.n * b.n, a.d * b.d⟩

/-- Function `divideRational` from `RationalBigInt.js`: throws when the divisor's
numerator is zero, otherwise normalizes the cross product. -/
def divideRational (a b : RatBI) : Except JSError RatBI :=
  if b.n = 0 then .error .divisionByZero
  else normalizeRational ⟨a.n * b.d, a.d * b.n⟩

/-- Function `isZero` from `RationalBigInt.js`. -/
def isZeroRat (r : RatBI) : Bool := r.n = 0

/-- Constant `MAX_DEN = 10n ** 30n` from `RationalBigInt.js`. -/
def MAX_DEN : Int := 10 ^ 30

/-- The absolute value of a truncating remainder is the `Nat` remainder of
the absolute values (JavaScript `%` on `BigInt`s). -/
theorem natAbs_tmod (a b : Int) : (a.tmod b).natAbs = a.natAbs % b.natAbs := by
  cases a <;> cases b <;>
    simp only [Int.tmod, Int.natAbs_neg, Int.natAbs_ofNat, Int.natAbs_negSucc] <;> rfl

/-- The loop of `approxFrac` from `RationalBigInt.js`: continued-fraction
recurrence driven by the Euclidean algorithm with JavaScript (truncating)
division, stopping before the denominator would exceed `maxDen`.  Runs on a
structural fuel counter so that it evaluates inside the kernel; `|b|`
strictly decreases each iteration, so any fuel above the initial `|b|`
makes the fuel case unreachable. -/
def approxFracLoop : Nat → (a b p0 q0 p1 q1 maxDen : Int) → RatBI
  | 0, _a, _b, _p0, _q0, p1, q1, _maxDen => ⟨p1, q1⟩
  | fuel + 1, a, b, p0, q0, p1, q1, maxDen =>
    if b = 0 then ⟨p1, q1⟩
    else
      let k := a.tdiv b
      let p2 := k * p1 + p0
      let q2 := k * q1 + q0
      if q2 > maxDen then ⟨p1, q1⟩
      else approxFracLoop fuel b (a.tmod b) p1 q1 p2 q2 maxDen

/-- Function `approxFrac(num, den, maxDen)` from `RationalBigInt.js`
(loop run with sufficient fuel). -/
def approxFrac (num den maxDen : Int) : RatBI :=
  approxFracLoop (den.natAbs + 1) num den 0 1 1 0 maxDen

/-- Newton loop of `bigIntSqrt` from `RationalBigInt.js`:
`y = (x + v/x) >> 1; while (y < x) { x = y; y = (x + v/x) >> 1 }`.
Runs on a structural fuel counter so that it evaluates inside the kernel;
`x` strictly decreases each iteration, so any fuel above the initial `x`
makes the fuel case unreachable. -/
def isqrtLoop : Nat → (v x : Nat) → Nat
  | 0, _v, x => x
  | fuel + 1, v, x =>
    let y := (x + v / x) / 2
    if y < x then isqrtLoop fuel v y else x

/-- Binary length of a natural number, modelling the JavaScript
`value.toString(2).length` used by `bigIntSqrt`: the number of binary
digits, computed by repeated halving (on a structural fuel counter, any
fuel above `n` sufficing). -/
def bitLen : Nat → Nat → Nat
  | 0, _ => 0
  | fuel + 1, n => if n = 0 then 0 else bitLen fuel (n / 2) + 1

/-- Every number is below `2 ^` its binary length. -/
theorem lt_two_pow_bitLen : ∀ (fuel n : Nat), n < fuel → n < 2 ^ bitLen fuel n := by
  intro fuel
  induction fuel with
  | zero => omega
  | succ fuel ih =>
    intro n hn
    by_cases h0 : n = 0
    · subst h0; simp [bitLen]
    · rw [bitLen, if_neg h0, pow_succ]
      have := ih (n / 2) (by omega)
      omega

/-- Function `bigIntSqrt(value)` from `RationalBigInt.js`: throws on negative input,
returns the value itself below 2, otherwise runs Newton's method from an
initial guess `1n << ceil(bitLength(v) / 2)`. -/
def bigIntSqrt (value : Int) : Except JSError Int :=
  if value < 0 then .error .negativeInput
  else if value < 2 then .ok value
  else
    let v := value.toNat
    let x0 := 2 ^ ((bitLen (v + 1) v + 1) / 2)
    .ok ((isqrtLoop (x0 + 1) v x0 : Nat) : Int)

/-- A complex number over `RatBI` components, as in `Complex.js`. -/
structure Complex where
  re : RatBI
  im : RatBI
  deriving Repr, DecidableEq

/-- The constructor `new Complex(reN, reD, imN, imD)` from `Complex.js`:
both components are passed through `normalizeRational`. -/
def mkComplex (reN reD imN imD : Int) : Except JSError Complex := do
  let re ← normalizeRational ⟨reN, reD⟩
  let im ← normalizeRational ⟨imN, imD⟩
  .ok ⟨re, im⟩

/-- Static constant `Complex.ONE`. -/
def ONE : Complex := ⟨⟨1, 1⟩, ⟨0, 1⟩⟩

/-- Static constant `Complex.ZERO`. -/
def ZERO : Complex := ⟨⟨0, 1⟩, ⟨0, 1⟩⟩

/-- Static constant `Complex.I`. -/
def I : Complex := ⟨⟨0, 1⟩, ⟨1, 1⟩⟩

namespace Complex

/-- Method `add` from `Complex.js`: componentwise rational addition followed
by the normalizing constructor. -/
def add (z c : Complex) : Except JSError Complex := do
  let newRe ← addRational z.re c.re
  let newIm ← addRational z.im c.im
  mkComplex newRe.n newRe.d newIm.n newIm.d

/-- Method `subtract` from `Complex.js`. -/
def subtract (z c : Complex) : Except JSError Complex := do
  let newRe ← subtractRational z.re c.re
  let newIm ← subtractRational z.im c.im
  mkComplex newRe.n newRe.d newIm.n newIm.d

/-- Method `multiply` from `Complex.js`: `(ac - bd) + (ad + bc)i`, result
built by the normalizing constructor (no unit-magnitude renormalization). -/
def multiply (z c : Complex) : Except JSError Complex := do
  let ac ← multiplyRational z.re c.re
  let bd ← multiplyRational z.im c.im
  let realPart ← subtractRational ac bd
  let ad ← multiplyRational z.re c.im
  let bc ← multiplyRational z.im c.re
  let imagPart ← addRational ad bc
  mkComplex realPart.n realPart.d imagPart.n imagPart.d

/-- Method `divide` from `Complex.js`: conjugate multiplication; throws
`DivisionByZero` when the divisor's squared magnitude `c² + d²` is zero. -/
def divide (z c : Complex) : Except JSError Complex := do
  let c_sq ← multiplyRational c.re c.re
  let d_sq ← multiplyRational c.im c.im
  let denom ← addRational c_sq d_sq
  if isZeroRat denom then .error .divisionByZero
  else do
    let conjugate ← mkComplex c.re.n c.re.d (-c.im.n) c.im.d
    let numerator ← mkComplex z.re.n z.re.d z.im.n z.im.d
    let ac ← multiplyRational numerator.re conjugate.re
    let bd ← multiplyRational numerator.im conjugate.im
    let realPart ← subtractRational ac bd
    let ad ← multiplyRational numerator.re conjugate.im
    let bc ← multiplyRational numerator.im conjugate.re
    let imagPart ← addRational ad bc
    let finalRe ← divideRational realPart denom
    let finalIm ← divideRational imagPart denom
    mkComplex finalRe.n finalRe.d finalIm.n finalIm.d

/-- Method `magnitudeSquaredRational` from the browser `Complex.js`:
`re² + im²` computed exactly as a rational. -/
def magnitudeSquaredRational (z : Complex) : Except JSError RatBI := do
  let reSq ← multiplyRational z.re z.re
  let imSq ← multiplyRational z.im z.im
  addRational reSq imSq

/-- Method `conjugate` from `Complex.js`: negates the imaginary numerator,
rebuilding through the normalizing constructor. -/
def conjugate (z : Complex) : Except JSError Complex :=
  mkComplex z.re.n z.re.d (-z.im.n) z.im.d

/-- Static method `Complex.normalizeComplex(z)` from `Complex.js`: exact
squared magnitude, integer square root of `(magSq.d * 10^120) / magSq.n`,
component rescaling by `S / 10^60`, and bounded-denominator approximation
of each component with cap `MAX_DEN`. -/
def normalizeComplex (z : Complex) : Except JSError Complex :=
  if isZeroRat z.re && isZeroRat z.im then .ok ZERO
  else do
    let xSq ← multiplyRational z.re z.re
    let ySq ← multiplyRational z.im z.im
    let magSq ← addRational xSq ySq
    if magSq.n = 0 then .ok ZERO
    else do
      let precisionScale : Int := 10 ^ 60
      let precisionScaleSq := precisionScale * precisionScale
      let S2 := (magSq.d * precisionScaleSq).tdiv magSq.n
      let S ← bigIntSqrt S2
      let newReN := z.re.n * S
      let newReD := z.re.d * precisionScale
      let newImN := z.im.n * S
      let newImD := z.im.d * precisionScale
      let reApprox := approxFrac newReN newReD MAX_DEN
      let imApprox := approxFrac newImN newImD MAX_DEN
      mkComplex reApprox.n reApprox.d imApprox.n imApprox.d

end Complex

/-! ## Trig.js: coefficient generator, convergent engine, stable exponentiation -/

/-- One iteration of the generator loop in `generateCoefficients` from
`public/Trig.js` (the `n !== 1` branch), producing coefficient `c`. -/
def coefficientAt (n : Int) (c : Nat) : Except JSError Complex :=
  if c = 0 then mkComplex 1 1 0 1
  else if c % 2 ≠ 0 then
    let power := (c + 1) / 2
    let sign : Int := if power % 2 = 0 then 1 else -1
    let imagValue := sign * (c : Int) * n
    mkComplex 0 1 imagValue 1
  else
    let power := c / 2
    let sign : Int := if power % 2 = 0 then 1 else -1
    let realValue := 2 * sign
    mkComplex realValue 1 0 1

/-- The hardcoded 24-entry coefficient table for `n === 1` in
`generateCoefficients` from `public/Trig.js`, each entry a constructor call. -/
def hardcodedCoeffs : Except JSError (List Complex) :=
  [(1, 1, 1, 1), (-2, 1, 1, 1), (1, 1, 3, 1), (-2, 1, 0, 1),
   (0, 1, -5, 1), (2, 1, 0, 1), (0, 1, 7, 1), (-2, 1, 0, 1),
   (0, 1, -9, 1), (2, 1, 0, 1), (0, 1, 11, 1), (-2, 1, 0, 1),
   (0, 1, -13, 1), (2, 1, 0, 1), (0, 1, 15, 1), (-2, 1, 0, 1),
   (0, 1, -17, 1), (2, 1, 0, 1), (0, 1, 19, 1), (-2, 1, 0, 1),
   (0, 1, -21, 1), (2, 1, 0, 1), (0, 1, 23, 1), (-2, 1, 0, 1)
  ].mapM (fun t => mkComplex t.1 t.2.1 t.2.2.1 t.2.2.2)

/-- Function `generateCoefficients(n, k)` from `public/Trig.js`: the
hardcoded table sliced to `k` entries for `n === 1`, otherwise the odd/even
formula loop for `c = 0 .. k-1`. -/
def generateCoefficients (n : Int) (k : Nat) : Except JSError (List Complex) :=
  if n = 1 then do
    let cs ← hardcodedCoeffs
    .ok (cs.take k)
  else
    (List.range k).mapM (coefficientAt n)

/-- The stopping-criterion test of `computeAllConvergents` from
`public/Trig.js`: `|q_n|⁴ · |a_{next}|²` compared against `LIMIT` by the
cross multiplication `product.n > LIMIT * product.d`. -/
def limitExceeded (q_n a_next : Complex) (LIMIT : Int) : Except JSError Bool := do
  let qn_mag_sq ← q_n.magnitudeSquaredRational
  let qn_mag_quat ← multiplyRational qn_mag_sq qn_mag_sq
  let anext_mag_sq ← a_next.magnitudeSquaredRational
  let product ← multiplyRational qn_mag_quat anext_mag_sq
  .ok (product.n > LIMIT * product.d)

/-- The main loop of `computeAllConvergents` from `public/Trig.js`,
structurally over the remaining coefficients: the continuant recurrence,
the complex division producing each convergent, and the first-trigger
stopping-criterion check (performed only while a next coefficient exists
and `mathLimitIndex` is still `-1`). -/
def convergentLoop (rest : List Complex) (p_prev_prev p_prev q_prev_prev q_prev : Complex)
    (i : Nat) (mli LIMIT : Int) : Except JSError (List Complex × Int) :=
  match rest with
  | [] => .ok ([], mli)
  | a :: rest' => do
    let ap ← a.multiply p_prev
    let p_n ← ap.add p_prev_prev
    let aq ← a.multiply q_prev
    let q_n ← aq.add q_prev_prev
    let convergent ← p_n.divide q_n
    let mli' ←
      if mli = -1 then
        match rest' with
        | [] => pure mli
        | a_next :: _ => do
          let b ← limitExceeded q_n a_next LIMIT
          pure (if b then (i : Int) else mli)
      else pure mli
    let (convs, mliFinal) ← convergentLoop rest' p_prev p_n q_prev q_n (i + 1) mli' LIMIT
    .ok (convergent :: convs, mliFinal)

/-- The `LIMIT` computation at the head of `computeAllConvergents` in
`public/Trig.js`: `2^106 * numerator²`, guarded to the base `2^106` when
the squared numerator is not positive (i.e. when the numerator is zero). -/
def limitFor (numerator : Int) : Int :=
  let nAbs := if numerator < 0 then -numerator else numerator
  let nSq := nAbs * nAbs
  let baseLimit : Int := 2 ^ 106
  if nSq > 0 then baseLimit * nSq else baseLimit

/-- Function `computeAllConvergents(coefficients, numerator)` from
`public/Trig.js`: the `LIMIT` computation, the two early returns for zero
and one coefficients, and the main recurrence loop seeded with `p = 0, 1`
and `q = 1, 0`. -/
def computeAllConvergents (coefficients : List Complex) (numerator : Int) :
    Except JSError (List Complex × Int) :=
  let LIMIT := limitFor numerator
  match coefficients with
  | [] => .ok ([], -1)
  | [a] => .ok ([a], -1)
  | _ => convergentLoop coefficients ZERO ONE ONE ZERO 0 (-1) LIMIT

/-- An exponent value as supplied to `powComplexStable` in `public/Trig.js`:
either a JavaScript number (restricted here to integral values, as supplied
by the trig pipeline) or a `BigInt`. -/
inductive JSExponent where
  | num (v : Int)
  | big (v : Int)
  deriving Repr, DecidableEq

/-- The binary-exponentiation loop of `powComplexStable` from
`public/Trig.js` (entered only with positive `exp`, hence a `Nat`): on an
odd bit, multiply into the result and renormalize; square and renormalize
the base every iteration; shift right.  Runs on a structural fuel counter
so that it evaluates inside the kernel; `e` strictly decreases each
iteration, so any fuel above the initial `e` makes the fuel case
unreachable. -/
def powLoop : Nat → (e : Nat) → Complex → Complex → Except JSError Complex
  | 0, _e, result, _x => .ok result
  | fuel + 1, e, result, x =>
    if e = 0 then .ok result
    else do
      let result' ←
        if e % 2 = 1 then do
          let t ← result.multiply x
          Complex.normalizeComplex t
        else pure result
      let xx ← x.multiply x
      let x' ← Complex.normalizeComplex xx
      powLoop fuel (e / 2) result' x'

/-- Function `powComplexStable(base, exponent)` from `public/Trig.js`:
a `BigInt` exponent is used as is, a number exponent is replaced by its
absolute value; `isNegative` is true only for a negative *number* exponent;
the loop runs while the exponent is positive, and the conjugate is returned
when `isNegative` holds. -/
def powComplexStable (base : Complex) (exponent : JSExponent) : Except JSError Complex := do
  let exp : Int :=
    match exponent with
    | .big v => v
    | .num v => |v|
  let isNegative : Bool :=
    match exponent with
    | .num v => v < 0
    | .big _ => false
  let result ← powLoop (exp.toNat + 1) exp.toNat ONE base
  if isNegative then result.conjugate else .ok result

/-! ## Canonical form of normalized rationals -/

/-- Canonical form of a rational (spec section 3): positive denominator,
coprime components, zero represented as `0/1`. -/
def RatCanonical (r : RatBI) : Prop :=
  0 < r.d ∧ Int.gcd r.n r.d = 1 ∧ (r.n = 0 → r.d = 1)

instance (r : RatBI) : Decidable (RatCanonical r) := by
  unfold RatCanonical; infer_instance

/-- The function `gcdJS` agrees with `Int.gcd` (as an integer). -/
theorem gcdJS_eq_gcd (a b : Int) : gcdJS a b = (Int.gcd a b : Int) := by
  rw [gcdJS_eq]; rfl

/-- Normalization fails exactly on a zero denominator. -/
theorem normalizeRational_error_iff (r : RatBI) (e : JSError) :
    normalizeRational r = .error e ↔ (r.d = 0 ∧ e = .divisionByZero) := by
  unfold normalizeRational
  by_cases h : r.d = 0
  · simp [h]
    constructor
    · intro he; cases he; rfl
    · intro he; subst he; rfl
  · simp only [if_neg h]
    by_cases h0 : r.n = 0 <;> simp [h0, h]

/-- Normalization succeeds on every nonzero denominator. -/
theorem normalizeRational_ok_of_ne (r : RatBI) (h : r.d ≠ 0) :
    ∃ r', normalizeRational r = .ok r' := by
  unfold normalizeRational
  by_cases h0 : r.n = 0 <;> simp [h0, h]

/-- Every successful normalization is canonical: positive denominator,
coprime components, and zero in the shape `0/1`. -/
theorem normalizeRational_canonical (r r' : RatBI)
    (h : normalizeRational r = .ok r') : RatCanonical r' := by
  unfold normalizeRational at h
  by_cases hd : r.d = 0
  · simp [hd] at h
  by_cases hn : r.n = 0
  · simp [hd, hn] at h
    subst h
    refine ⟨one_pos, by simp [Int.gcd], fun _ => rfl⟩
  simp only [if_neg hd, if_neg hn, Except.ok.injEq] at h
  set n := if r.d < 0 then -r.n else r.n with hn_def
  set d := if r.d < 0 then -r.d else r.d with hd_def
  have hdpos : 0 < d := by
    rw [hd_def]; split <;> omega
  have hnne : n ≠ 0 := by
    rw [hn_def]; split <;> simpa
  have hg : gcdJS n d = (Int.gcd n d : Int) := gcdJS_eq_gcd n d
  have hgpos : 0 < Int.gcd n d := Int.gcd_pos_of_ne_zero_left d hnne
  have hgdvd_n : ((Int.gcd n d : Int)) ∣ n := Int.gcd_dvd_left
  have hgdvd_d : ((Int.gcd n d : Int)) ∣ d := Int.gcd_dvd_right
  have htd_n : n.tdiv (gcdJS n d) = n / (Int.gcd n d : Int) := by
    rw [hg]; exact Int.tdiv_eq_ediv_of_dvd hgdvd_n
  have htd_d : d.tdiv (gcdJS n d) = d / (Int.gcd n d : Int) := by
    rw [hg]; exact Int.tdiv_eq_ediv_of_dvd hgdvd_d
  subst h
  refine ⟨?_, ?_, ?_⟩
  · simp only [htd_d]
    exact Int.ediv_pos_of_pos_of_dvd hdpos (by positivity) hgdvd_d
  · simp only [htd_n, htd_d]
    exact Int.gcd_div_gcd_div_gcd hgpos
  · intro h0
    simp only [htd_n] at h0
    have : n = 0 := by
      have := Int.ediv_mul_cancel hgdvd_n
      rw [h0, zero_mul] at this
      exact this.symm
    exact absurd this hnne

/-- A successful normalization preserves the fraction's value
(cross-multiplication equality). -/
theorem normalizeRational_value (r r' : RatBI)
    (h : normalizeRational r = .ok r') : r'.n * r.d = r.n * r'.d := by
  unfold normalizeRational at h
  by_cases hd : r.d = 0
  · simp [hd] at h
  by_cases hn : r.n = 0
  · simp [hd, hn] at h
    subst h
    simp [hn]
  simp only [if_neg hd, if_neg hn, Except.ok.injEq] at h
  set n := if r.d < 0 then -r.n else r.n with hn_def
  set d := if r.d < 0 then -r.d else r.d with hd_def
  have hg : gcdJS n d = (Int.gcd n d : Int) := gcdJS_eq_gcd n d
  have hgdvd_n : ((Int.gcd n d : Int)) ∣ n := Int.gcd_dvd_left
  have hgdvd_d : ((Int.gcd n d : Int)) ∣ d := Int.gcd_dvd_right
  have hcross : n * r.d = r.n * d := by
    rw [hn_def, hd_def]
    split <;> ring
  have hnne : n ≠ 0 := by
    rw [hn_def]; split <;> simpa
  have hgne : (Int.gcd n d : Int) ≠ 0 := by
    have : 0 < Int.gcd n d := Int.gcd_pos_of_ne_zero_left d hnne
    positivity
  subst h
  simp only [hg]
  apply mul_left_cancel₀ hgne
  calc (Int.gcd n d : Int) * (n.tdiv (Int.gcd n d : Int) * r.d)
      = ((Int.gcd n d : Int) * n.tdiv (Int.gcd n d : Int)) * r.d := by ring
    _ = n * r.d := by rw [Int.mul_tdiv_cancel' hgdvd_n]
    _ = r.n * d := hcross
    _ = r.n * ((Int.gcd n d : Int) * d.tdiv (Int.gcd n d : Int)) := by
        rw [Int.mul_tdiv_cancel' hgdvd_d]
    _ = (Int.gcd n d : Int) * (r.n * d.tdiv (Int.gcd n d : Int)) := by ring

/-- A canonical rational normalizes to itself. -/
theorem normalizeRational_of_canonical (r : RatBI) (h : RatCanonical r) :
    normalizeRational r = .ok r := by
  obtain ⟨hd, hg, hz⟩ := h
  unfold normalizeRational
  rw [if_neg (by omega)]
  by_cases hn : r.n = 0
  · rw [if_pos hn]
    have := hz hn
    cases r
    simp_all
  · rw [if_neg hn]
    have hflip : ¬ r.d < 0 := by omega
    simp only [if_neg hflip]
    rw [gcdJS_eq_gcd, hg]
    simp [Int.tdiv_one]

/-! ## C6: normalization idempotence and canonical form -/

/-- C6 (confirmed): for every rational with nonzero denominator,
normalization succeeds, is idempotent, yields a positive denominator and
coprime components, and sends a zero numerator to the canonical `0/1`. -/
theorem normalize_idempotent_canonical (r : RatBI) (h : r.d ≠ 0) :
    ∃ r', normalizeRational r = .ok r' ∧ normalizeRational r' = .ok r' ∧
      0 < r'.d ∧ Int.gcd r'.n r'.d = 1 ∧ (r.n = 0 → r' = ⟨0, 1⟩) := by
  obtain ⟨r', hr'⟩ := normalizeRational_ok_of_ne r h
  have hcan := normalizeRational_canonical r r' hr'
  refine ⟨r', hr', normalizeRational_of_canonical r' hcan, hcan.1, hcan.2.1, ?_⟩
  intro h0
  unfold normalizeRational at hr'
  rw [if_neg h, if_pos h0] at hr'
  exact (Except.ok.injEq _ _).mp hr'.symm

/-- Witness for C6 at the concrete rational `6 / -4`. -/
theorem normalize_idempotent_canonical_witness :
    (⟨6, -4⟩ : RatBI).d ≠ 0 ∧
    ∃ r', normalizeRational ⟨6, -4⟩ = .ok r' ∧ normalizeRational r' = .ok r' ∧
      0 < r'.d ∧ Int.gcd r'.n r'.d = 1 ∧ ((⟨6, -4⟩ : RatBI).n = 0 → r' = ⟨0, 1⟩) :=
  ⟨by decide, normalize_idempotent_canonical ⟨6, -4⟩ (by decide)⟩

/-! ## C3: the concrete coefficient list `generateCoefficients(2, 5)` -/

/-- C3 counterexample: the code does *not* return the claimed list
`[1+0i, 0+2i, -2+0i, 0-6i, 2+0i]` — the odd-index entries have the
opposite sign (the first odd coefficient is `0-2i`, not `0+2i`). -/
theorem generateCoefficients_2_5_ne_claimed :
    generateCoefficients 2 5 ≠ .ok
      [⟨⟨1, 1⟩, ⟨0, 1⟩⟩, ⟨⟨0, 1⟩, ⟨2, 1⟩⟩, ⟨⟨-2, 1⟩, ⟨0, 1⟩⟩,
       ⟨⟨0, 1⟩, ⟨-6, 1⟩⟩, ⟨⟨2, 1⟩, ⟨0, 1⟩⟩] := by decide

/-- C3 (corrected): `generateCoefficients(2, 5)` returns exactly
`[1+0i, 0-2i, -2+0i, 0+6i, 2+0i]`, the odd/even formulas with the
signs the code actually produces. -/
theorem generateCoefficients_2_5 :
    generateCoefficients 2 5 = .ok
      [⟨⟨1, 1⟩, ⟨0, 1⟩⟩, ⟨⟨0, 1⟩, ⟨-2, 1⟩⟩, ⟨⟨-2, 1⟩, ⟨0, 1⟩⟩,
       ⟨⟨0, 1⟩, ⟨6, 1⟩⟩, ⟨⟨2, 1⟩, ⟨0, 1⟩⟩] := by decide

/-! ## C1: negative exponents in `powComplexStable` -/

set_option maxRecDepth 100000 in
/-- C1 (code bug): for a *BigInt* exponent `-1` the loop is never entered
and `isNegative` stays false, so `powComplexStable(i, -1n)` returns `1+0i`,
whereas the conjugate of `powComplexStable(i, 1n) = i` is `-i`.  The claimed
identity `powComplexStable(z, -n) = conjugate(powComplexStable(z, n))`
therefore fails for BigInt exponents (the path used by the pipeline). -/
theorem powComplexStable_big_negative_bug :
    powComplexStable I (.big (-1)) = .ok ONE ∧
    powComplexStable I (.big 1) = .ok I ∧
    Complex.conjugate I = .ok ⟨⟨0, 1⟩, ⟨-1, 1⟩⟩ ∧
    ONE ≠ (⟨⟨0, 1⟩, ⟨-1, 1⟩⟩ : Complex) := by decide

/-! ## C5: the `MAX_DEN` denominator cap on `powComplexStable` results -/

set_option maxRecDepth 100000 in
/-- C5 (code bug): the bounded-denominator approximation inside
`normalizeComplex` uses JavaScript truncating division, so for a negative
component numerator the continued-fraction loop can accept a negative
intermediate denominator whose magnitude exceeds `MAX_DEN`; the cap check
`q2 > maxDen` never fires on negative values.  Concretely,
`powComplexStable(-1+1i, 1)` returns a component with denominator
`1226772815866448075980016003618 > 10^30`. -/
theorem powComplexStable_denominator_cap_bug :
    powComplexStable ⟨⟨-1, 1⟩, ⟨1, 1⟩⟩ (.num 1) = .ok
      ⟨⟨-867459377074481256712011306719, 1226772815866448075980016003618⟩,
       ⟨254072969141257218722003304910, 359313438791966819268004696899⟩⟩ ∧
    MAX_DEN < (1226772815866448075980016003618 : Int) := by decide

/-! ## C7: exactness of `bigIntSqrt` -/

/-- Integer AM-GM bound: one Newton step from any `x ≥ 1` stays at or
above the integer square root. -/
theorem sqrt_le_newton_step (v x : Nat) (hx : 1 ≤ x) :
    Nat.sqrt v ≤ (x + v / x) / 2 := by
  set s := Nat.sqrt v with hs
  have h1 : s * s ≤ v := Nat.sqrt_le v
  have h2 : s * s / x ≤ v / x := Nat.div_le_div_right h1
  have hsuff : s ≤ (x + s * s / x) / 2 := by
    rw [Nat.le_div_iff_mul_le (by norm_num : 0 < 2)]
    rcases le_or_lt (2 * s) x with h | h
    · exact le_trans (by omega : s * 2 ≤ x) (Nat.le_add_right _ _)
    · have hx2 : x ≤ 2 * s := Nat.le_of_lt h
      have hkey : (2 * s - x) * x ≤ s * s := by
        zify [hx2]
        nlinarith [sq_nonneg ((s : Int) - x)]
      have h3 : 2 * s - x ≤ s * s / x := (Nat.le_div_iff_mul_le hx).mpr hkey
      omega
  calc s ≤ (x + s * s / x) / 2 := hsuff
    _ ≤ (x + v / x) / 2 := Nat.div_le_div_right (by omega)

/-- Strict decrease: while `x` is still above the integer square root, a
Newton step strictly decreases it. -/
theorem newton_step_lt (v x : Nat) (hx : 1 ≤ x) (hgt : Nat.sqrt v < x) :
    (x + v / x) / 2 < x := by
  have hv : v < x ^ 2 := Nat.sqrt_lt'.mp hgt
  have hdiv : v / x < x := by
    rw [Nat.div_lt_iff_lt_mul (by omega)]
    nlinarith
  omega

/-- With sufficient fuel, the Newton loop of `bigIntSqrt` computes the
exact integer square root from any starting point at or above it. -/
theorem isqrtLoop_eq_sqrt : ∀ (fuel v x : Nat), x < fuel → 1 ≤ x →
    Nat.sqrt v ≤ x → 1 ≤ v → isqrtLoop fuel v x = Nat.sqrt v := by
  intro fuel
  induction fuel with
  | zero => omega
  | succ fuel ih =>
    intro v x hfuel hx1 hsx hv
    show (let y := (x + v / x) / 2;
          if y < x then isqrtLoop fuel v y else x) = Nat.sqrt v
    by_cases hy : (x + v / x) / 2 < x
    · simp only [if_pos hy]
      exact ih v _ (by omega) (le_trans (Nat.sqrt_pos.mpr hv) (sqrt_le_newton_step v x hx1))
        (sqrt_le_newton_step v x hx1) hv
    · simp only [if_neg hy]
      have hle : x ≤ Nat.sqrt v := by
        by_contra hgt
        exact hy (newton_step_lt v x hx1 (by omega))
      omega

/-- Uniqueness of the integer square root over `Int`. -/
theorem int_sqrt_unique (v r r' : Int) (hr0 : 0 ≤ r) (hr1 : r * r ≤ v)
    (hr2 : v < (r + 1) * (r + 1)) (hr'0 : 0 ≤ r') (hr'1 : r' * r' ≤ v)
    (hr'2 : v < (r' + 1) * (r' + 1)) : r' = r := by
  by_contra hne
  rcases lt_or_gt_of_ne hne with h | h
  · nlinarith
  · nlinarith

/-- C7 (confirmed): `bigIntSqrt` throws `NegativeInput` exactly on negative
input, and on every nonnegative input returns the unique `r` with
`r² ≤ v < (r+1)²` — the exact floor of the square root. -/
theorem bigIntSqrt_exact (v : Int) :
    (v < 0 → bigIntSqrt v = .error .negativeInput) ∧
    (0 ≤ v → ∃ r, bigIntSqrt v = .ok r ∧ 0 ≤ r ∧ r * r ≤ v ∧ v < (r + 1) * (r + 1) ∧
      ∀ r', 0 ≤ r' → r' * r' ≤ v → v < (r' + 1) * (r' + 1) → r' = r) := by
  constructor
  · intro hneg
    unfold bigIntSqrt
    rw [if_pos hneg]
  · intro hpos
    by_cases hsmall : v < 2
    · refine ⟨v, ?_, hpos, ?_, ?_, ?_⟩
      · unfold bigIntSqrt
        rw [if_neg (by omega), if_pos hsmall]
      · nlinarith
      · nlinarith
      · intro r' h0 h1 h2
        exact int_sqrt_unique v v r' hpos (by nlinarith) (by nlinarith) h0 h1 h2
    · push_neg at hsmall
      set vN := v.toNat with hvN
      have hvNv : (vN : Int) = v := Int.toNat_of_nonneg hpos
      have hvN2 : 2 ≤ vN := by omega
      set L := bitLen (vN + 1) vN with hL
      set x0 := 2 ^ ((L + 1) / 2) with hx0
      have hx0pos : 1 ≤ x0 := Nat.one_le_two_pow
      have hvlt : vN < 2 ^ L := lt_two_pow_bitLen (vN + 1) vN (Nat.lt_succ_self _)
      have hsx0 : Nat.sqrt vN < x0 := by
        rw [Nat.sqrt_lt']
        calc vN < 2 ^ L := hvlt
          _ ≤ 2 ^ (((L + 1) / 2) * 2) := Nat.pow_le_pow_right (by omega) (by omega)
          _ = x0 ^ 2 := by rw [hx0, ← pow_mul]
      have hloop : isqrtLoop (x0 + 1) vN x0 = Nat.sqrt vN :=
        isqrtLoop_eq_sqrt (x0 + 1) vN x0 (Nat.lt_succ_self _) hx0pos
          (Nat.le_of_lt hsx0) (by omega)
      refine ⟨((Nat.sqrt vN : Nat) : Int), ?_, by positivity, ?_, ?_, ?_⟩
      · unfold bigIntSqrt
        rw [if_neg (by omega), if_neg (by omega)]
        simp only [← hvN, ← hL, ← hx0, hloop]
      · have := Nat.sqrt_le vN
        have : ((Nat.sqrt vN * Nat.sqrt vN : Nat) : Int) ≤ (vN : Int) :=
          Int.ofNat_le.mpr this
        push_cast at this ⊢
        omega
      · have := Nat.lt_succ_sqrt vN
        have : (vN : Int) < ((Nat.succ (Nat.sqrt vN) * Nat.succ (Nat.sqrt vN) : Nat) : Int) :=
          Int.ofNat_lt.mpr this
        push_cast at this ⊢
        omega
      · intro r' h0 h1 h2
        apply int_sqrt_unique v _ r' (by positivity) _ _ h0 h1 h2
        · have := Nat.sqrt_le vN
          have : ((Nat.sqrt vN * Nat.sqrt vN : Nat) : Int) ≤ (vN : Int) :=
            Int.ofNat_le.mpr this
          push_cast at this ⊢
          omega
        · have := Nat.lt_succ_sqrt vN
          have : (vN : Int) < ((Nat.succ (Nat.sqrt vN) * Nat.succ (Nat.sqrt vN) : Nat) : Int) :=
            Int.ofNat_lt.mpr this
          push_cast at this ⊢
          omega

/-- Witness for C7 at `v = 133456`, whose integer square root is 365. -/
theorem bigIntSqrt_exact_witness :
    (0 : Int) ≤ 133456 ∧
    ∃ r, bigIntSqrt 133456 = .ok r ∧ 0 ≤ r ∧ r * r ≤ 133456 ∧
      (133456 : Int) < (r + 1) * (r + 1) ∧
      ∀ r', 0 ≤ r' → r' * r' ≤ 133456 → (133456 : Int) < (r' + 1) * (r' + 1) → r' = r :=
  ⟨by decide, (bigIntSqrt_exact 133456).2 (by decide)⟩

/-! ## C8: the continued-fraction bounded-denominator approximation -/

/-- Spec-side loop, following the claim's words: the classical recurrence
`p₂ = k·p₁+p₀, q₂ = k·q₁+q₀` with `k = floor(a/b)` along the Euclidean
algorithm (floor division and floor remainder), stopping before the next
denominator would exceed `maxDen`. -/
def floorApproxFracLoop : Nat → (a b p0 q0 p1 q1 maxDen : Int) → RatBI
  | 0, _a, _b, _p0, _q0, p1, q1, _maxDen => ⟨p1, q1⟩
  | fuel + 1, a, b, p0, q0, p1, q1, maxDen =>
    if b = 0 then ⟨p1, q1⟩
    else
      let k := a.fdiv b
      let p2 := k * p1 + p0
      let q2 := k * q1 + q0
      if q2 > maxDen then ⟨p1, q1⟩
      else floorApproxFracLoop fuel b (a.fmod b) p1 q1 p2 q2 maxDen

/-- Spec-side `approxFrac`, following the claim's words (floor division). -/
def floorApproxFrac (num den maxDen : Int) : RatBI :=
  floorApproxFracLoop (den.natAbs + 1) num den 0 1 1 0 maxDen

/-- C8 counterexample: for `num = -1, den = 2, maxDen = 10` (denominator
positive, cap at least 1) the code returns the pair `1 / -2`, whose
denominator `-2` is not at least 1 — JavaScript truncating division makes
the loop accept negative intermediate denominators on negative numerators,
falsifying the claim's "returned denominator is at least 1". -/
theorem approxFrac_neg_counterexample :
    approxFrac (-1) 2 10 = ⟨1, -2⟩ ∧ (0 : Int) < 2 ∧ (1 : Int) ≤ 10 ∧
    ¬ (1 : Int) ≤ (approxFrac (-1) 2 10).d := by decide

/-- Loop invariant for the states reached after the first iteration:
`0 ≤ b < a`, and the carried denominators satisfy `0 ≤ q0 ≤ q1` with
`1 ≤ q1 ≤ maxDen`.  Under these the truncating loop coincides with the
floor-division loop and the returned denominator stays in `[1, maxDen]`. -/
theorem approxFracLoop_inv : ∀ (fuel : Nat) (a b p0 q0 p1 q1 maxDen : Int),
    0 ≤ b → b < a → b.natAbs < fuel → 0 ≤ q0 → q0 ≤ q1 → 1 ≤ q1 → q1 ≤ maxDen →
    approxFracLoop fuel a b p0 q0 p1 q1 maxDen
      = floorApproxFracLoop fuel a b p0 q0 p1 q1 maxDen ∧
    1 ≤ (approxFracLoop fuel a b p0 q0 p1 q1 maxDen).d ∧
    (approxFracLoop fuel a b p0 q0 p1 q1 maxDen).d ≤ maxDen := by
  intro fuel
  induction fuel with
  | zero => omega
  | succ fuel ih =>
    intro a b p0 q0 p1 q1 maxDen hb0 hba hfuel hq00 hq01 hq11 hq1m
    by_cases hb : b = 0
    · subst hb
      rw [approxFracLoop, floorApproxFracLoop]
      simp only [if_pos rfl]
      exact ⟨rfl, hq11, hq1m⟩
    · have hbpos : 0 < b := lt_of_le_of_ne hb0 (Ne.symm hb)
      have ha0 : 0 ≤ a := le_of_lt (lt_of_le_of_lt hb0 hba)
      have hdiv : a.fdiv b = a.tdiv b := Int.fdiv_eq_tdiv ha0 hb0
      have hmod : a.fmod b = a.tmod b := Int.fmod_eq_tmod ha0 hb0
      have hk1 : 1 ≤ a.tdiv b := by
        rw [Int.tdiv_eq_ediv ha0 hb0]
        exact (Int.le_ediv_iff_mul_le hbpos).mpr (by omega)
      rw [approxFracLoop, floorApproxFracLoop]
      simp only [if_neg hb, hdiv, hmod]
      by_cases hq2 : a.tdiv b * q1 + q0 > maxDen
      · simp only [if_pos hq2]
        exact ⟨trivial, hq11, hq1m⟩
      · simp only [if_neg hq2]
        apply ih
        · exact Int.tmod_nonneg b ha0
        · exact Int.tmod_lt_of_pos a hbpos
        · have := natAbs_tmod a b
          have hblt : (a.tmod b).natAbs < b.natAbs :=
            this ▸ Nat.mod_lt _ (Int.natAbs_pos.mpr hb)
          omega
        · omega
        · nlinarith
        · nlinarith
        · omega

/-- C8 (corrected, restricted to nonnegative numerators): for `num ≥ 0`,
`den > 0` and `maxDen ≥ 1`, `approxFrac` agrees with the claim's
floor-division continued-fraction recurrence (truncating and floor division
coincide on nonnegative operands), and the returned denominator lies in
`[1, maxDen]`. -/
theorem approxFrac_nonneg_correct (num den maxDen : Int)
    (hnum : 0 ≤ num) (hden : 0 < den) (hmax : 1 ≤ maxDen) :
    approxFrac num den maxDen = floorApproxFrac num den maxDen ∧
    1 ≤ (approxFrac num den maxDen).d ∧ (approxFrac num den maxDen).d ≤ maxDen := by
  have hden0 : den ≠ 0 := by omega
  have hdiv : num.fdiv den = num.tdiv den := Int.fdiv_eq_tdiv hnum (le_of_lt hden)
  have hmod : num.fmod den = num.tmod den := Int.fmod_eq_tmod hnum (le_of_lt hden)
  unfold approxFrac floorApproxFrac
  have hfuel : den.natAbs + 1 = (den.natAbs) + 1 := rfl
  rw [approxFracLoop, floorApproxFracLoop]
  simp only [if_neg hden0, hdiv, hmod, mul_zero, zero_add, mul_one, add_zero]
  have hcond : ¬ ((1 : Int) > maxDen) := by omega
  simp only [if_neg hcond]
  apply approxFracLoop_inv
  · exact Int.tmod_nonneg den hnum
  · exact Int.tmod_lt_of_pos num hden
  · have := natAbs_tmod num den
    have : (num.tmod den).natAbs < den.natAbs :=
      this ▸ Nat.mod_lt _ (Int.natAbs_pos.mpr hden0)
    omega
  · omega
  · omega
  · omega
  · omega

/-- Witness for C8 at `num = 7, den = 3, maxDen = 10`. -/
theorem approxFrac_nonneg_correct_witness :
    ((0 : Int) ≤ 7 ∧ (0 : Int) < 3 ∧ (1 : Int) ≤ 10) ∧
    (approxFrac 7 3 10 = floorApproxFrac 7 3 10 ∧
     1 ≤ (approxFrac 7 3 10).d ∧ (approxFrac 7 3 10).d ≤ 10) :=
  ⟨by decide, approxFrac_nonneg_correct 7 3 10 (by decide) (by decide) (by decide)⟩

/-! ## C4: the odd/even coefficient formulas for `q ≠ 1` -/

/-- Spec-side coefficient value, following the claim's words:
`a_0 = 1 + 0i`, for odd `c` `a_c = 0 + i*(c*q*(-1)^((c+1)/2))`, and for
even `c ≥ 2` `a_c = 2*(-1)^(c/2) + 0i`, all integer rationals over
denominator 1. -/
def specCoefficient (q : Int) (c : Nat) : Complex :=
  if c = 0 then ⟨⟨1, 1⟩, ⟨0, 1⟩⟩
  else if c % 2 = 1 then ⟨⟨0, 1⟩, ⟨(c : Int) * q * (-1) ^ ((c + 1) / 2), 1⟩⟩
  else ⟨⟨2 * (-1) ^ (c / 2), 1⟩, ⟨0, 1⟩⟩

/-- Parity description of integer powers of `-1`. -/
theorem neg_one_pow_int (p : Nat) :
    ((-1 : Int)) ^ p = if p % 2 = 0 then 1 else -1 := by
  rcases Nat.even_or_odd p with h | h
  · rw [h.neg_one_pow, if_pos (Nat.even_iff.mp h)]
  · have hodd := Nat.odd_iff.mp h
    rw [h.neg_one_pow, if_neg (by omega)]

/-- Integer rationals over denominator 1 are fixed by normalization. -/
theorem normalizeRational_intValue (v : Int) :
    normalizeRational ⟨v, 1⟩ = .ok ⟨v, 1⟩ := by
  apply normalizeRational_of_canonical
  exact ⟨one_pos, by simp [Int.gcd], fun _ => rfl⟩

/-- A constructor call on integer components over denominator 1 succeeds
with exactly those components. -/
theorem mkComplex_int (a b : Int) : mkComplex a 1 b 1 = .ok ⟨⟨a, 1⟩, ⟨b, 1⟩⟩ := by
  unfold mkComplex
  rw [normalizeRational_intValue, normalizeRational_intValue]
  rfl

/-- Each generated coefficient (general branch) matches the claim's
formula. -/
theorem coefficientAt_eq_spec (n : Int) (c : Nat) :
    coefficientAt n c = .ok (specCoefficient n c) := by
  by_cases h0 : c = 0
  · subst h0
    simp [coefficientAt, specCoefficient, mkComplex_int]
  · by_cases hodd : c % 2 = 1
    · have hne : c % 2 ≠ 0 := by omega
      have hval : (if (c + 1) / 2 % 2 = 0 then (1 : Int) else -1) * (c : Int) * n
          = (c : Int) * n * (-1) ^ ((c + 1) / 2) := by
        rw [neg_one_pow_int]; split <;> ring
      simp only [coefficientAt, specCoefficient, if_neg h0, if_pos hne, if_pos hodd,
        mkComplex_int, hval]
    · have hne : ¬ c % 2 ≠ 0 := by omega
      have hval : 2 * (if c / 2 % 2 = 0 then (1 : Int) else -1)
          = 2 * (-1) ^ (c / 2) := by
        rw [neg_one_pow_int]
      simp only [coefficientAt, specCoefficient, if_neg h0, if_neg hne, if_neg hodd,
        mkComplex_int, hval]

/-- Mapping a pointwise-successful effectful function over a list collects
the results. -/
theorem list_mapM_ok {α β : Type} (f : α → Except JSError β) (g : α → β)
    (h : ∀ a, f a = .ok (g a)) : ∀ l : List α, l.mapM f = .ok (l.map g) := by
  intro l
  induction l with
  | nil => rfl
  | cons a l ih =>
    rw [List.mapM_cons, h a, ih]
    rfl

/-- C4 (confirmed): for every denominator `q ≠ 1` and count `k`,
`generateCoefficients(q, k)` returns exactly the `k` coefficients given by
the claim's formulas: `a_0 = 1+0i`, odd `a_c = 0 + i*(c*q*(-1)^((c+1)/2))`,
even `a_c = 2*(-1)^(c/2) + 0i`, each an integer rational over
denominator 1. -/
theorem generateCoefficients_formula (n : Int) (k : Nat) (hn : n ≠ 1) :
    generateCoefficients n k = .ok ((List.range k).map (specCoefficient n)) := by
  unfold generateCoefficients
  rw [if_neg hn]
  exact list_mapM_ok _ _ (coefficientAt_eq_spec n) (List.range k)

/-- Witness for C4 at `q = 2, k = 3`. -/
theorem generateCoefficients_formula_witness :
    (2 : Int) ≠ 1 ∧
    generateCoefficients 2 3 = .ok ((List.range 3).map (specCoefficient 2)) :=
  ⟨by decide, generateCoefficients_formula 2 3 (by decide)⟩

/-! ## Infrastructure: bind destructuring and canonical propagation -/

/-- Reduction of a successful bind. -/
theorem except_ok_bind {α β : Type} (a : α) (f : α → Except JSError β) :
    (Except.ok a >>= f) = f a := rfl

/-- A bind succeeds exactly when both stages succeed. -/
theorem except_bind_eq_ok {α β : Type} {x : Except JSError α}
    {f : α → Except JSError β} {b : β} :
    (x >>= f) = .ok b ↔ ∃ a, x = .ok a ∧ f a = .ok b := by
  cases x with
  | error e => simp [Bind.bind, Except.bind]
  | ok a => simp [Bind.bind, Except.bind]

/-- Components with nonzero denominators (every JavaScript `Complex`
instance satisfies this, having been normalized by its constructor). -/
def WfC (z : Complex) : Prop := z.re.d ≠ 0 ∧ z.im.d ≠ 0

instance (z : Complex) : Decidable (WfC z) := by
  unfold WfC; infer_instance

/-- A canonical rational has a nonzero denominator. -/
theorem RatCanonical.dNe {r : RatBI} (h : RatCanonical r) : r.d ≠ 0 := by
  have := h.1; omega

/-- Canonical components give well-formedness. -/
theorem wfC_of_canonical {z : Complex}
    (h : RatCanonical z.re ∧ RatCanonical z.im) : WfC z :=
  ⟨h.1.dNe, h.2.dNe⟩

/-- Every successful constructor call yields canonical components. -/
theorem mkComplex_canonical {a b c d : Int} {z : Complex}
    (h : mkComplex a b c d = .ok z) : RatCanonical z.re ∧ RatCanonical z.im := by
  unfold mkComplex at h
  simp only [except_bind_eq_ok] at h
  obtain ⟨re, hre, im, him, hz⟩ := h
  cases hz
  exact ⟨normalizeRational_canonical _ _ hre, normalizeRational_canonical _ _ him⟩

/-- The constructor succeeds on nonzero denominators, with canonical
components. -/
theorem mkComplex_ok (a b c d : Int) (hb : b ≠ 0) (hd : d ≠ 0) :
    ∃ z, mkComplex a b c d = .ok z ∧ RatCanonical z.re ∧ RatCanonical z.im := by
  obtain ⟨re, hre⟩ := normalizeRational_ok_of_ne ⟨a, b⟩ hb
  obtain ⟨im, him⟩ := normalizeRational_ok_of_ne ⟨c, d⟩ hd
  refine ⟨⟨re, im⟩, ?_, normalizeRational_canonical _ _ hre,
    normalizeRational_canonical _ _ him⟩
  unfold mkComplex
  rw [hre, except_ok_bind, him, except_ok_bind]

/-- Rational multiplication succeeds on nonzero denominators, with a
canonical result. -/
theorem multiplyRational_ok (a b : RatBI) (ha : a.d ≠ 0) (hb : b.d ≠ 0) :
    ∃ r, multiplyRational a b = .ok r ∧ RatCanonical r := by
  obtain ⟨r, hr⟩ := normalizeRational_ok_of_ne ⟨a.n * b.n, a.d * b.d⟩ (mul_ne_zero ha hb)
  exact ⟨r, hr, normalizeRational_canonical _ _ hr⟩

/-- Rational addition succeeds on nonzero denominators, with a canonical
result. -/
theorem addRational_ok (a b : RatBI) (ha : a.d ≠ 0) (hb : b.d ≠ 0) :
    ∃ r, addRational a b = .ok r ∧ RatCanonical r := by
  obtain ⟨r, hr⟩ := normalizeRational_ok_of_ne ⟨a.n * b.d + b.n * a.d, a.d * b.d⟩
    (mul_ne_zero ha hb)
  exact ⟨r, hr, normalizeRational_canonical _ _ hr⟩

/-- Rational subtraction succeeds on nonzero denominators, with a canonical
result. -/
theorem subtractRational_ok (a b : RatBI) (ha : a.d ≠ 0) (hb : b.d ≠ 0) :
    ∃ r, subtractRational a b = .ok r ∧ RatCanonical r := by
  obtain ⟨r, hr⟩ := normalizeRational_ok_of_ne ⟨a.n * b.d - b.n * a.d, a.d * b.d⟩
    (mul_ne_zero ha hb)
  exact ⟨r, hr, normalizeRational_canonical _ _ hr⟩

/-- Every successful `add` yields canonical components. -/
theorem add_canonical {z w u : Complex} (h : Complex.add z w = .ok u) :
    RatCanonical u.re ∧ RatCanonical u.im := by
  unfold Complex.add at h
  simp only [except_bind_eq_ok] at h
  obtain ⟨r1, _, r2, _, hm⟩ := h
  exact mkComplex_canonical hm

/-- Every successful `subtract` yields canonical components. -/
theorem subtract_canonical {z w u : Complex} (h : Complex.subtract z w = .ok u) :
    RatCanonical u.re ∧ RatCanonical u.im := by
  unfold Complex.subtract at h
  simp only [except_bind_eq_ok] at h
  obtain ⟨r1, _, r2, _, hm⟩ := h
  exact mkComplex_canonical hm

/-- Every successful `multiply` yields canonical components. -/
theorem multiply_canonical {z w u : Complex} (h : Complex.multiply z w = .ok u) :
    RatCanonical u.re ∧ RatCanonical u.im := by
  unfold Complex.multiply at h
  simp only [except_bind_eq_ok] at h
  obtain ⟨ac, _, bd, _, rp, _, ad, _, bc, _, ip, _, hm⟩ := h
  exact mkComplex_canonical hm

/-- Every successful `divide` yields canonical components. -/
theorem divide_canonical {z w u : Complex} (h : Complex.divide z w = .ok u) :
    RatCanonical u.re ∧ RatCanonical u.im := by
  unfold Complex.divide at h
  simp only [except_bind_eq_ok] at h
  obtain ⟨csq, _, dsq, _, denom, _, h⟩ := h
  by_cases hz : isZeroRat denom
  · rw [if_pos hz] at h
    exact absurd h (by simp)
  · rw [if_neg hz] at h
    simp only [except_bind_eq_ok] at h
    obtain ⟨cj, _, nm, _, ac, _, bd, _, rp, _, ad, _, bc, _, ip, _, fr, _, fi, _, hm⟩ := h
    exact mkComplex_canonical hm

/-- Every successful `conjugate` yields canonical components. -/
theorem conjugate_canonical {z u : Complex} (h : Complex.conjugate z = .ok u) :
    RatCanonical u.re ∧ RatCanonical u.im :=
  mkComplex_canonical h

/-- The components of `ZERO` are canonical. -/
theorem ZERO_canonical : RatCanonical ZERO.re ∧ RatCanonical ZERO.im := by
  constructor <;> exact ⟨one_pos, by decide, fun _ => rfl⟩

/-- Every successful `normalizeComplex` yields canonical components. -/
theorem normalizeComplex_canonical {z u : Complex}
    (h : Complex.normalizeComplex z = .ok u) :
    RatCanonical u.re ∧ RatCanonical u.im := by
  unfold Complex.normalizeComplex at h
  by_cases h0 : isZeroRat z.re && isZeroRat z.im
  · rw [if_pos h0] at h
    cases h
    exact ZERO_canonical
  · rw [if_neg h0] at h
    simp only [except_bind_eq_ok] at h
    obtain ⟨xSq, _, ySq, _, magSq, _, h⟩ := h
    by_cases hm0 : magSq.n = 0
    · rw [if_pos hm0] at h
      cases h
      exact ZERO_canonical
    · rw [if_neg hm0] at h
      simp only [except_bind_eq_ok] at h
      obtain ⟨S, _, hm⟩ := h
      exact mkComplex_canonical hm

/-- Complex `multiply` succeeds on well-formed inputs, with canonical
components. -/
theorem multiply_ok (z w : Complex) (hz : WfC z) (hw : WfC w) :
    ∃ u, Complex.multiply z w = .ok u ∧ RatCanonical u.re ∧ RatCanonical u.im := by
  obtain ⟨ac, hac, hac_c⟩ := multiplyRational_ok z.re w.re hz.1 hw.1
  obtain ⟨bd, hbd, hbd_c⟩ := multiplyRational_ok z.im w.im hz.2 hw.2
  obtain ⟨rp, hrp, hrp_c⟩ := subtractRational_ok ac bd hac_c.dNe hbd_c.dNe
  obtain ⟨ad, had, had_c⟩ := multiplyRational_ok z.re w.im hz.1 hw.2
  obtain ⟨bc, hbc, hbc_c⟩ := multiplyRational_ok z.im w.re hz.2 hw.1
  obtain ⟨ip, hip, hip_c⟩ := addRational_ok ad bc had_c.dNe hbc_c.dNe
  obtain ⟨u, hu, hu_c⟩ := mkComplex_ok rp.n rp.d ip.n ip.d hrp_c.dNe hip_c.dNe
  refine ⟨u, ?_, hu_c⟩
  unfold Complex.multiply
  rw [hac, except_ok_bind, hbd, except_ok_bind, hrp, except_ok_bind,
    had, except_ok_bind, hbc, except_ok_bind, hip, except_ok_bind, hu]

/-- Complex `add` succeeds on well-formed inputs, with canonical
components. -/
theorem add_ok (z w : Complex) (hz : WfC z) (hw : WfC w) :
    ∃ u, Complex.add z w = .ok u ∧ RatCanonical u.re ∧ RatCanonical u.im := by
  obtain ⟨r1, hr1, hr1_c⟩ := addRational_ok z.re w.re hz.1 hw.1
  obtain ⟨r2, hr2, hr2_c⟩ := addRational_ok z.im w.im hz.2 hw.2
  obtain ⟨u, hu, hu_c⟩ := mkComplex_ok r1.n r1.d r2.n r2.d hr1_c.dNe hr2_c.dNe
  refine ⟨u, ?_, hu_c⟩
  unfold Complex.add
  rw [hr1, except_ok_bind, hr2, except_ok_bind, hu]

/-! ## C10: canonical components at every producer -/

/-- C10 (confirmed): every `Complex` produced by the constructor or by any
operation (`add`, `subtract`, `multiply`, `divide`, `conjugate`,
`normalizeComplex`) has canonical components: positive denominator,
coprime numerator and denominator, and zero represented as `0/1`.  The
constructor conjunct also covers `fromFloat`, whose rational approximations
are passed through the constructor. -/
theorem complex_always_canonical :
    (∀ (a b c d : Int) (z : Complex), mkComplex a b c d = .ok z →
      RatCanonical z.re ∧ RatCanonical z.im) ∧
    (∀ z w u : Complex, Complex.add z w = .ok u →
      RatCanonical u.re ∧ RatCanonical u.im) ∧
    (∀ z w u : Complex, Complex.subtract z w = .ok u →
      RatCanonical u.re ∧ RatCanonical u.im) ∧
    (∀ z w u : Complex, Complex.multiply z w = .ok u →
      RatCanonical u.re ∧ RatCanonical u.im) ∧
    (∀ z w u : Complex, Complex.divide z w = .ok u →
      RatCanonical u.re ∧ RatCanonical u.im) ∧
    (∀ z u : Complex, Complex.conjugate z = .ok u →
      RatCanonical u.re ∧ RatCanonical u.im) ∧
    (∀ z u : Complex, Complex.normalizeComplex z = .ok u →
      RatCanonical u.re ∧ RatCanonical u.im) :=
  ⟨fun _ _ _ _ _ h => mkComplex_canonical h,
   fun _ _ _ h => add_canonical h,
   fun _ _ _ h => subtract_canonical h,
   fun _ _ _ h => multiply_canonical h,
   fun _ _ _ h => divide_canonical h,
   fun _ _ h => conjugate_canonical h,
   fun _ _ h => normalizeComplex_canonical h⟩

/-- Witness for C10: the constructor conjunct at `new Complex(6, -4, 0, 3)`,
which produces the canonical `-3/2 + (0/1)i`. -/
theorem complex_always_canonical_witness :
    RatCanonical (⟨⟨-3, 2⟩, ⟨0, 1⟩⟩ : Complex).re ∧
    RatCanonical (⟨⟨-3, 2⟩, ⟨0, 1⟩⟩ : Complex).im :=
  complex_always_canonical.1 6 (-4) 0 3 ⟨⟨-3, 2⟩, ⟨0, 1⟩⟩ (by decide)

/-! ## C9: division-by-zero semantics -/

/-- Division of canonical-denominator rationals by a rational with nonzero
numerator succeeds, with a canonical result. -/
theorem divideRational_ok (a b : RatBI) (ha : a.d ≠ 0) (hbn : b.n ≠ 0) :
    ∃ r, divideRational a b = .ok r ∧ RatCanonical r := by
  unfold divideRational
  rw [if_neg hbn]
  obtain ⟨r, hr⟩ := normalizeRational_ok_of_ne ⟨a.n * b.d, a.d * b.n⟩ (mul_ne_zero ha hbn)
  exact ⟨r, hr, normalizeRational_canonical _ _ hr⟩

/-- C9 (confirmed): on rationals and complexes with nonzero component
denominators (the data-model invariant), `divideRational(a, b)` raises
`DivisionByZero` exactly when `b`'s numerator is zero, and otherwise
returns the normalized value of `a·(1/b)` (cross-multiplication equality
`r.n·(a.d·b.n) = (a.n·b.d)·r.d`); complex `divide(z, w)` raises
`DivisionByZero` exactly when the exact squared-magnitude rational
`w.re² + w.im²` is zero.  All operands are immutable values in this
embedding. -/
theorem divide_divisionByZero_iff (a b : RatBI) (z w : Complex)
    (ha : a.d ≠ 0) (_hb : b.d ≠ 0) (hz : WfC z) (hw : WfC w) :
    (divideRational a b = .error .divisionByZero ↔ b.n = 0) ∧
    (b.n ≠ 0 → ∃ r, divideRational a b = .ok r ∧ RatCanonical r ∧
      r.n * (a.d * b.n) = a.n * b.d * r.d) ∧
    (∀ m, Complex.magnitudeSquaredRational w = .ok m →
      (Complex.divide z w = .error .divisionByZero ↔ m.n = 0)) := by
  refine ⟨?_, ?_, ?_⟩
  · constructor
    · intro herr
      by_contra hbn
      obtain ⟨r, hr, _⟩ := divideRational_ok a b ha hbn
      rw [hr] at herr
      exact absurd herr (by simp)
    · intro hbn
      unfold divideRational
      rw [if_pos hbn]
  · intro hbn
    unfold divideRational
    rw [if_neg hbn]
    obtain ⟨r, hr⟩ := normalizeRational_ok_of_ne ⟨a.n * b.d, a.d * b.n⟩ (mul_ne_zero ha hbn)
    exact ⟨r, hr, normalizeRational_canonical _ _ hr,
      normalizeRational_value _ _ hr⟩
  · intro m hm
    unfold Complex.magnitudeSquaredRational at hm
    simp only [except_bind_eq_ok] at hm
    obtain ⟨reSq, hreSq, imSq, himSq, hadd⟩ := hm
    unfold Complex.divide
    rw [hreSq, except_ok_bind, himSq, except_ok_bind, hadd, except_ok_bind]
    by_cases hm0 : m.n = 0
    · rw [if_pos (by simpa [isZeroRat] using hm0)]
      simp [hm0]
    · rw [if_neg (by simpa [isZeroRat] using hm0)]
      constructor
      · intro herr
        exfalso
        obtain ⟨cj, hcj, hcj_c⟩ := mkComplex_ok w.re.n w.re.d (-w.im.n) w.im.d hw.1 hw.2
        obtain ⟨nm, hnm, hnm_c⟩ := mkComplex_ok z.re.n z.re.d z.im.n z.im.d hz.1 hz.2
        obtain ⟨ac, hac, hac_c⟩ :=
          multiplyRational_ok nm.re cj.re hnm_c.1.dNe hcj_c.1.dNe
        obtain ⟨bd, hbd, hbd_c⟩ :=
          multiplyRational_ok nm.im cj.im hnm_c.2.dNe hcj_c.2.dNe
        obtain ⟨rp, hrp, hrp_c⟩ := subtractRational_ok ac bd hac_c.dNe hbd_c.dNe
        obtain ⟨ad, had, had_c⟩ :=
          multiplyRational_ok nm.re cj.im hnm_c.1.dNe hcj_c.2.dNe
        obtain ⟨bc, hbc, hbc_c⟩ :=
          multiplyRational_ok nm.im cj.re hnm_c.2.dNe hcj_c.1.dNe
        obtain ⟨ip, hip, hip_c⟩ := addRational_ok ad bc had_c.dNe hbc_c.dNe
        obtain ⟨fr, hfr, hfr_c⟩ := divideRational_ok rp m hrp_c.dNe hm0
        obtain ⟨fi, hfi, hfi_c⟩ := divideRational_ok ip m hip_c.dNe hm0
        obtain ⟨u, hu, _⟩ := mkComplex_ok fr.n fr.d fi.n fi.d hfr_c.dNe hfi_c.dNe
        rw [hcj, except_ok_bind, hnm, except_ok_bind, hac, except_ok_bind,
          hbd, except_ok_bind, hrp, except_ok_bind, had, except_ok_bind,
          hbc, except_ok_bind, hip, except_ok_bind, hfr, except_ok_bind,
          hfi, except_ok_bind, hu] at herr
        exact absurd herr (by simp)
      · intro h0
        exact absurd h0 hm0

/-- Witness for C9 at `a = 1/2`, `b = 3/4`, `z = 1+0i`, `w = 0+1i`. -/
theorem divide_divisionByZero_iff_witness :
    ((divideRational ⟨1, 2⟩ ⟨3, 4⟩ = .error .divisionByZero ↔ (⟨3, 4⟩ : RatBI).n = 0) ∧
     ((⟨3, 4⟩ : RatBI).n ≠ 0 → ∃ r, divideRational ⟨1, 2⟩ ⟨3, 4⟩ = .ok r ∧ RatCanonical r ∧
       r.n * ((⟨1, 2⟩ : RatBI).d * (⟨3, 4⟩ : RatBI).n)
         = (⟨1, 2⟩ : RatBI).n * (⟨3, 4⟩ : RatBI).d * r.d) ∧
     (∀ m, Complex.magnitudeSquaredRational I = .ok m →
       (Complex.divide ONE I = .error .divisionByZero ↔ m.n = 0))) :=
  divide_divisionByZero_iff ⟨1, 2⟩ ⟨3, 4⟩ ONE I (by decide) (by decide)
    ⟨by decide, by decide⟩ ⟨by decide, by decide⟩

/-! ## C2: the `mathLimitIndex` stopping criterion -/

/-- Spec-side continuant denominators: the sequence `q_i` of the
Wallis–Euler recurrence `q_i = a_i·q_{i-1} + q_{i-2}` alone (the claim's
`|q_i|` values are taken from these), seeded like the engine with
`q_{-2} = 1, q_{-1} = 0`. -/
def qSeq : List Complex → Complex → Complex → Except JSError (List Complex)
  | [], _, _ => .ok []
  | a :: rest, q_pp, q_p => do
    let aq ← a.multiply q_p
    let q_n ← aq.add q_pp
    let qs ← qSeq rest q_p q_n
    .ok (q_n :: qs)

/-- Spec-side search for the claim's "smallest index `i` with `i+1 < k`
such that the exact rational `|q_i|⁴·|a_{i+1}|²` exceeds `LIMIT`" (decided
by the same integer cross multiplication), returning `-1` when no such
index exists.  The pairing of each `q_i` with the next coefficient is the
zip of the continuant sequence with the coefficient tail. -/
def firstExceedIndex (LIMIT : Int) : List (Complex × Complex) → Nat → Except JSError Int
  | [], _ => .ok (-1)
  | (q, a_next) :: rest, i => do
    let b ← limitExceeded q a_next LIMIT
    if b then .ok (i : Int) else firstExceedIndex LIMIT rest (i + 1)

/-- Spec-side `mathLimitIndex`: the smallest qualifying index over the
continuant sequence, per the claim's words. -/
def specLimitIndex (coeffs : List Complex) (LIMIT : Int) : Except JSError Int := do
  let qs ← qSeq coeffs ONE ZERO
  firstExceedIndex LIMIT (qs.zip coeffs.tail) 0

/-- Normalization of `pure` into `Except.ok`. -/
theorem except_pure_eq_ok {α : Type} (a : α) :
    (pure a : Except JSError α) = .ok a := rfl

/-- Inversion of one engine iteration: a successful run on `a :: rest'`
performs the two continuant steps and the convergent division, computes the
(possibly triggered) intermediate `mathLimitIndex`, and recurses. -/
theorem convergentLoop_cons_inv {a : Complex} {rest' : List Complex}
    {p_pp p_p q_pp q_p : Complex} {i : Nat} {mli LIMIT : Int}
    {cs : List Complex} {m : Int}
    (h : convergentLoop (a :: rest') p_pp p_p q_pp q_p i mli LIMIT = .ok (cs, m)) :
    ∃ ap p_n aq q_n conv mli' cs',
      a.multiply p_p = .ok ap ∧ ap.add p_pp = .ok p_n ∧
      a.multiply q_p = .ok aq ∧ aq.add q_pp = .ok q_n ∧
      p_n.divide q_n = .ok conv ∧
      ((mli = -1 ∧ ((rest' = [] ∧ mli' = mli) ∨
        (∃ a_next rest'' b, rest' = a_next :: rest'' ∧
          limitExceeded q_n a_next LIMIT = .ok b ∧
          mli' = (if b then (i : Int) else mli)))) ∨
       (mli ≠ -1 ∧ mli' = mli)) ∧
      convergentLoop rest' p_p p_n q_p q_n (i + 1) mli' LIMIT = .ok (cs', m) ∧
      cs = conv :: cs' := by
  unfold convergentLoop at h
  simp only [except_bind_eq_ok] at h
  obtain ⟨ap, hap, p_n, hpn, aq, haq, q_n, hqn, conv, hconv, hrest⟩ := h
  by_cases hm : mli = -1
  · rw [if_pos hm] at hrest
    cases rest' with
    | nil =>
      simp only [except_pure_eq_ok, except_bind_eq_ok, Except.ok.injEq,
        Prod.mk.injEq] at hrest
      obtain ⟨y, hy, ⟨cs', m'⟩, hrec, hcs, hm'⟩ := hrest
      subst hy
      subst hm'
      exact ⟨ap, p_n, aq, q_n, conv, mli, cs', hap, hpn, haq, hqn, hconv,
        Or.inl ⟨hm, Or.inl ⟨rfl, rfl⟩⟩, hrec, hcs.symm⟩
    | cons a_next rest'' =>
      simp only [except_pure_eq_ok, except_bind_eq_ok, Except.ok.injEq,
        Prod.mk.injEq] at hrest
      obtain ⟨b, hb, y, hy, ⟨cs', m'⟩, hrec, hcs, hm'⟩ := hrest
      subst hy
      subst hm'
      exact ⟨ap, p_n, aq, q_n, conv, (if b then (i : Int) else mli), cs',
        hap, hpn, haq, hqn, hconv,
        Or.inl ⟨hm, Or.inr ⟨a_next, rest'', b, rfl, hb, rfl⟩⟩, hrec, hcs.symm⟩
  · rw [if_neg hm] at hrest
    simp only [except_pure_eq_ok, except_bind_eq_ok, Except.ok.injEq,
      Prod.mk.injEq] at hrest
    obtain ⟨y, hy, ⟨cs', m'⟩, hrec, hcs, hm'⟩ := hrest
    subst hy
    subst hm'
    exact ⟨ap, p_n, aq, q_n, conv, mli, cs', hap, hpn, haq, hqn, hconv,
      Or.inr ⟨hm, rfl⟩, hrec, hcs.symm⟩

/-- A successful engine run also runs the continuant recurrence
successfully, and an already-set `mathLimitIndex` is final. -/
theorem convergentLoop_ok_parts : ∀ (rest : List Complex)
    (p_pp p_p q_pp q_p : Complex) (i : Nat) (mli LIMIT : Int)
    (cs : List Complex) (m : Int),
    convergentLoop rest p_pp p_p q_pp q_p i mli LIMIT = .ok (cs, m) →
    (∃ qs, qSeq rest q_pp q_p = .ok qs) ∧ (mli ≠ -1 → m = mli) := by
  intro rest
  induction rest with
  | nil =>
    intro p_pp p_p q_pp q_p i mli LIMIT cs m h
    unfold convergentLoop at h
    cases h
    exact ⟨⟨[], rfl⟩, fun _ => rfl⟩
  | cons a rest' ih =>
    intro p_pp p_p q_pp q_p i mli LIMIT cs m h
    obtain ⟨ap, p_n, aq, q_n, conv, mli', cs', hap, hpn, haq, hqn, hconv,
      hmli', hrec, hcs⟩ := convergentLoop_cons_inv h
    obtain ⟨⟨qs', hqs'⟩, hstable⟩ := ih p_p p_n q_p q_n (i + 1) mli' LIMIT cs' m hrec
    constructor
    · refine ⟨q_n :: qs', ?_⟩
      unfold qSeq
      rw [haq, except_ok_bind, hqn, except_ok_bind, hqs', except_ok_bind]
    · intro hne
      rcases hmli' with ⟨hm, _⟩ | ⟨_, hm'⟩
      · exact absurd hm hne
      · exact (hstable (hm' ▸ hne)).trans hm'

/-- Main correspondence: starting from an unset `mathLimitIndex`, a
successful engine run returns exactly the first index (in the running
count) at which the cross-multiplied product exceeds `LIMIT`, taken over
the continuant sequence zipped with the remaining next coefficients. -/
theorem convergentLoop_trigger : ∀ (rest : List Complex)
    (p_pp p_p q_pp q_p : Complex) (i : Nat) (LIMIT : Int)
    (cs : List Complex) (m : Int),
    convergentLoop rest p_pp p_p q_pp q_p i (-1) LIMIT = .ok (cs, m) →
    ∃ qs, qSeq rest q_pp q_p = .ok qs ∧
      firstExceedIndex LIMIT (qs.zip rest.tail) i = .ok m := by
  intro rest
  induction rest with
  | nil =>
    intro p_pp p_p q_pp q_p i LIMIT cs m h
    unfold convergentLoop at h
    cases h
    exact ⟨[], rfl, rfl⟩
  | cons a rest' ih =>
    intro p_pp p_p q_pp q_p i LIMIT cs m h
    obtain ⟨ap, p_n, aq, q_n, conv, mli', cs', hap, hpn, haq, hqn, hconv,
      hmli', hrec, hcs⟩ := convergentLoop_cons_inv h
    have hqseq : ∀ qs', qSeq rest' q_p q_n = .ok qs' →
        qSeq (a :: rest') q_pp q_p = .ok (q_n :: qs') := by
      intro qs' hqs'
      unfold qSeq
      rw [haq, except_ok_bind, hqn, except_ok_bind, hqs', except_ok_bind]
    rcases hmli' with ⟨_, hcase⟩ | ⟨hne, _⟩
    · rcases hcase with ⟨hnil, hmli'⟩ | ⟨a_next, rest'', b, hcons, hb, hmli'⟩
      · subst hnil
        subst hmli'
        unfold convergentLoop at hrec
        cases hrec
        exact ⟨[q_n], hqseq [] rfl, rfl⟩
      · subst hcons
        cases b with
        | true =>
          simp at hmli'
          subst hmli'
          obtain ⟨⟨qs', hqs'⟩, hstable⟩ :=
            convergentLoop_ok_parts (a_next :: rest'') p_p p_n q_p q_n (i + 1)
              (i : Int) LIMIT cs' m hrec
          have hm : m = (i : Int) := hstable (by omega)
          refine ⟨q_n :: qs', hqseq qs' hqs', ?_⟩
          show firstExceedIndex LIMIT ((q_n, a_next) :: qs'.zip rest'') i = .ok m
          unfold firstExceedIndex
          rw [hb, except_ok_bind, if_pos rfl, hm]
        | false =>
          simp at hmli'
          subst hmli'
          obtain ⟨qs', hqs', hfe⟩ := ih p_p p_n q_p q_n (i + 1) LIMIT cs' m hrec
          refine ⟨q_n :: qs', hqseq qs' hqs', ?_⟩
          show firstExceedIndex LIMIT ((q_n, a_next) :: qs'.zip rest'') i = .ok m
          unfold firstExceedIndex
          rw [hb, except_ok_bind, if_neg (by simp)]
          exact hfe
    · exact absurd rfl hne

set_option maxRecDepth 100000 in
/-- C2 counterexample: for the zero numerator the claim's
`LIMIT = 2^106 · n² = 0` makes index 0 qualify on `[1+0i, 1+0i]`
(the product is `1 > 0`), yet the code — whose guard keeps
`LIMIT = 2^106` when the squared numerator is not positive — returns
`mathLimitIndex = -1`. -/
theorem computeAllConvergents_zero_numerator_gap :
    computeAllConvergents [ONE, ONE] 0 =
      .ok ([⟨⟨1, 1⟩, ⟨0, 1⟩⟩, ⟨⟨2, 1⟩, ⟨0, 1⟩⟩], -1) ∧
    specLimitIndex [ONE, ONE] (2 ^ 106 * 0 ^ 2) = .ok 0 ∧
    (2 ^ 106 * 0 ^ 2 : Int) = 0 := by decide

/-- C2 (corrected: the LIMIT for a zero numerator is `2^106`, not
`2^106·0² = 0`): for every well-formed coefficient list and integer
numerator, a zero-length list yields the empty sequence with no limit, a
one-element list yields that sole coefficient with no limit, and whenever
the engine returns, its `mathLimitIndex` equals the smallest index `i`
with `i+1 < k` whose exact cross-multiplied product
`|q_i|⁴·|a_{i+1}|²  >  LIMIT` (with `LIMIT = 2^106·n²` for `n ≠ 0` and
`2^106` for `n = 0`), or `-1` when no index qualifies. -/
theorem computeAllConvergents_mathLimitIndex (coeffs : List Complex)
    (numerator : Int) (hwf : ∀ c ∈ coeffs, WfC c) :
    (coeffs = [] → computeAllConvergents coeffs numerator = .ok ([], -1)) ∧
    (∀ a, coeffs = [a] → computeAllConvergents coeffs numerator = .ok ([a], -1)) ∧
    (∀ cs m, computeAllConvergents coeffs numerator = .ok (cs, m) →
      specLimitIndex coeffs (limitFor numerator) = .ok m) := by
  refine ⟨?_, ?_, ?_⟩
  · intro h
    subst h
    rfl
  · intro a h
    subst h
    rfl
  · intro cs m h
    cases coeffs with
    | nil =>
      have h0 : computeAllConvergents [] numerator = .ok ([], -1) := rfl
      rw [h0] at h
      simp only [Except.ok.injEq, Prod.mk.injEq] at h
      rw [← h.2]
      rfl
    | cons a tl =>
      cases tl with
      | nil =>
        have h0 : computeAllConvergents [a] numerator = .ok ([a], -1) := rfl
        rw [h0] at h
        simp only [Except.ok.injEq, Prod.mk.injEq] at h
        have hwa : WfC a := hwf a (by simp)
        obtain ⟨aq, haq, haq_c⟩ := multiply_ok a ZERO hwa (by decide)
        obtain ⟨q0, hq0, hq0_c⟩ := add_ok aq ONE (wfC_of_canonical haq_c) (by decide)
        unfold specLimitIndex
        have hqs : qSeq [a] ONE ZERO = .ok [q0] := by
          unfold qSeq
          rw [haq, except_ok_bind, hq0, except_ok_bind]
          rfl
        rw [hqs, except_ok_bind, ← h.2]
        rfl
      | cons b rest =>
        have h' : convergentLoop (a :: b :: rest) ZERO ONE ONE ZERO 0 (-1)
            (limitFor numerator) = .ok (cs, m) := h
        obtain ⟨qs, hqs, hfe⟩ :=
          convergentLoop_trigger (a :: b :: rest) ZERO ONE ONE ZERO 0
            (limitFor numerator) cs m h'
        unfold specLimitIndex
        rw [hqs, except_ok_bind]
        exact hfe

/-- Witness for C2 at `coefficients = [1+0i, 1+0i]`, `numerator = 1`. -/
theorem computeAllConvergents_mathLimitIndex_witness :
    (([ONE, ONE] : List Complex) = [] →
      computeAllConvergents [ONE, ONE] 1 = .ok ([], -1)) ∧
    (∀ a, ([ONE, ONE] : List Complex) = [a] →
      computeAllConvergents [ONE, ONE] 1 = .ok ([a], -1)) ∧
    (∀ cs m, computeAllConvergents [ONE, ONE] 1 = .ok (cs, m) →
      specLimitIndex [ONE, ONE] (limitFor 1) = .ok m) :=
  computeAllConvergents_mathLimitIndex [ONE, ONE] 1 (by
    intro c hc
    rcases List.mem_cons.mp hc with h | hc2
    · subst h
      exact ⟨by decide, by decide⟩
    · rcases List.mem_cons.mp hc2 with h | h3
      · subst h
        exact ⟨by decide, by decide⟩
      · exact absurd h3 (List.not_mem_nil c))

end TrigAnalyse
